import Mathlib

/-!
Verification of the JSON flattening / row-assembly core of the
ScholarOne API tool repository.

Embedded source files:
  * `src/core/flatten.py`                     — the reusable flattener `flatten`
  * `src/apps/gui/scholarone_gui_app.py`      — `flatten_json` (collision-suffix variant)
                                                and the 25-per-batch planner in `submit_request`
  * `src/apps/gui/email_scholarone_gui_app.py`— `flatten_json` (overwrite-merge variant)
                                                and the `batch_size` planner in `run_query`

Modelling conventions:
  * JSON values are the mutual inductive family `Json` / `JsonList` / `JsonObj`
    (arrays and objects carry their own spine so that all recursions are
    structural).  Python `dict`s are key-unique, insertion-ordered maps; they
    are modelled as ordered association lists `List (String × Json)` together
    with `dictInsert` / `dictUpdate`, which reproduce Python's
    `d[k] = v` / `d.update(sub)` semantics (replace in place, else append).
  * JSON numbers are modelled as `Int`; none of the verified claims depends
    on float behaviour (numeric truthiness is `n ≠ 0`, as in Python).
  * Python's `str(i)` on a nonnegative integer is the decimal numeral,
    modelled by the executable `decRepr` below.
  * Code that can raise (attribute access on a non-dict) is modelled in
    `Except Unit`; `.error ()` stands for a raised `AttributeError`.
-/

mutual

inductive Json : Type where
  | null : Json
  | bool : Bool → Json
  | num : Int → Json
  | str : String → Json
  | arr : JsonList → Json
  | obj : JsonObj → Json
  deriving DecidableEq

inductive JsonList : Type where
  | nil : JsonList
  | cons : Json → JsonList → JsonList
  deriving DecidableEq

inductive JsonObj : Type where
  | nil : JsonObj
  | cons : String → Json → JsonObj → JsonObj
  deriving DecidableEq

end

/-- List of the elements of a `JsonList`. -/
def JsonList.toList : JsonList → List Json
  | .nil => []
  | .cons v rest => v :: rest.toList

/-- Association list of the fields of a `JsonObj`. -/
def JsonObj.toList : JsonObj → List (String × Json)
  | .nil => []
  | .cons k v rest => (k, v) :: rest.toList

/-- Number of elements of a `JsonList`. -/
def JsonList.length : JsonList → Nat
  | .nil => 0
  | .cons _ rest => 1 + rest.length

/-- A scalar is any JSON value that is neither a mapping nor a (non-string)
sequence: exactly the values the Python code stores into the flat dict. -/
def isScalar : Json → Bool
  | .arr _ => false
  | .obj _ => false
  | _ => true

/-- Decimal digit character, `'0'` through `'9'`. -/
def digitChar (n : Nat) : Char := Char.ofNat (48 + n)

/-- Fuel-driven decimal digit writer (most significant digit first).
The fuel is only a structural-recursion device; `decRepr` always supplies
enough of it. -/
def decDigitsAux : Nat → Nat → List Char
  | 0, _ => []
  | _fuel + 1, n => if n < 10 then [digitChar n] else decDigitsAux _fuel (n / 10) ++ [digitChar (n % 10)]

/-- Decimal numeral of a natural number, as produced by Python's `str(i)`. -/
def decRepr (n : Nat) : String := String.mk (decDigitsAux (n + 1) n)

/-- Numeric value of a digit character. -/
def digitVal (c : Char) : Nat := c.toNat - 48

/-- Value of a digit string read most-significant-first. -/
def valOfDigits (ds : List Char) : Nat := ds.foldl (fun a c => a * 10 + digitVal c) 0

/-- Python's `k in d` for a dict modelled as an association list. -/
def containsKey (d : List (String × Json)) (k : String) : Bool :=
  d.any (fun kv => kv.1 == k)

/-- Python's `d[k] = v`: replace the value in place if the key is present
(keeping its position), otherwise append the new binding. -/
def dictInsert (d : List (String × Json)) (k : String) (v : Json) : List (String × Json) :=
  if containsKey d k then d.map (fun kv => if kv.1 == k then (kv.1, v) else kv)
  else d ++ [(k, v)]

/-- Python's `d.update(sub)`: insert the bindings of `sub` in order. -/
def dictUpdate (d sub : List (String × Json)) : List (String × Json) :=
  sub.foldl (fun acc kv => dictInsert acc kv.1 kv.2) d

mutual

/-- Embedding of `flatten` from `src/core/flatten.py`:
objects recurse per field with key `parent_key ++ sep ++ k` (just `k` on an
empty parent key), sequences recurse per 1-based position `i` with key
`parent_key ++ "_" ++ str i` (just `str i` on an empty parent key), and any
other value ends up as `items[parent_key] = obj`.  The sub-results are merged
into the accumulator dict with `items.update(...)`. -/
def flatten (o : Json) (parentKey sep : String) : List (String × Json) :=
  match o with
  | .obj fs => flattenFields fs parentKey sep []
  | .arr es => flattenElems es 1 parentKey sep []
  | j => [(parentKey, j)]

/-- The `for k, v in obj.items()` loop of `flatten`, threading the `items`
accumulator. -/
def flattenFields (fs : JsonObj) (parentKey sep : String) (items : List (String × Json)) :
    List (String × Json) :=
  match fs with
  | .nil => items
  | .cons k v rest =>
      flattenFields rest parentKey sep
        (dictUpdate items (flatten v (if parentKey = "" then k else parentKey ++ sep ++ k) sep))

/-- The `for i, v in enumerate(obj, start=1)` loop of `flatten`, threading the
`items` accumulator; `i` is the 1-based position of the head. -/
def flattenElems (es : JsonList) (i : Nat) (parentKey sep : String) (items : List (String × Json)) :
    List (String × Json) :=
  match es with
  | .nil => items
  | .cons v rest =>
      flattenElems rest (i + 1) parentKey sep
        (dictUpdate items (flatten v (if parentKey = "" then decRepr i else parentKey ++ "_" ++ decRepr i) sep))

end

mutual

/-- Number of scalar leaves of a JSON value. -/
def leafCount : Json → Nat
  | .obj fs => leafCountFields fs
  | .arr es => leafCountElems es
  | _ => 1

/-- Sum of the leaf counts of an object's field values. -/
def leafCountFields : JsonObj → Nat
  | .nil => 0
  | .cons _ v rest => leafCount v + leafCountFields rest

/-- Sum of the leaf counts of a list's elements. -/
def leafCountElems : JsonList → Nat
  | .nil => 0
  | .cons v rest => leafCount v + leafCountElems rest

end

example : flatten (.obj (.cons "a" (.arr (.cons (.num 1) (.cons (.obj (.cons "b" (.num 2) .nil)) .nil))) .nil)) "" "."
    = [("a_1", .num 1), ("a_2.b", .num 2)] := by decide

/-! The `flatten_json` of `src/apps/gui/scholarone_gui_app.py`. -/

/-- Python's `".".join(path)`. -/
def joinDot : List String → String
  | [] => ""
  | [x] => x
  | x :: y :: rest => x ++ "." ++ joinDot (y :: rest)

/-- The suffixed collision key `f"{flat_key}_{suffix}"`. -/
def sfx (base : String) (s : Nat) : String := base ++ "_" ++ decRepr s

/-- The `while f"{flat_key}_{suffix}" in flat: suffix += 1` scan of
`flatten_json.recurse`, written with fuel: the caller passes
`flat.length + 1` steps of fuel, which is always enough because the
candidate keys are pairwise distinct (see `freshKeyAux_spec`). -/
def freshKeyAux (flat : List (String × Json)) (base : String) : Nat → Nat → String
  | s, 0 => sfx base s
  | s, fuel + 1 => if containsKey flat (sfx base s) then freshKeyAux flat base (s + 1) fuel else sfx base s

/-- First unused suffixed key, scanning from suffix `2` upward. -/
def freshKey (flat : List (String × Json)) (base : String) : String :=
  freshKeyAux flat base 2 (flat.length + 1)

/-- Leaf key assembly of `flatten_json.recurse`: `".".join(path)`, then
`_{index+1}` when the traversal arrived with a list index (Python's
`enumerate` index is 0-based there, hence the `+ 1`). -/
def leafKey (path : List String) (index : Option Nat) : String :=
  match index with
  | some i => sfx (joinDot path) (i + 1)
  | none => joinDot path

/-- Leaf branch of `flatten_json.recurse`: resolve a collision with the
numeric-suffix scan, then `flat[flat_key] = o`. -/
def storeLeaf (flat : List (String × Json)) (fk : String) (o : Json) : List (String × Json) :=
  if containsKey flat fk then dictInsert flat (freshKey flat fk) o
  else dictInsert flat fk o

mutual

/-- Embedding of the closure `recurse(o, path, index)` of `flatten_json` in
`scholarone_gui_app.py`; the mutated closure dict `flat` is threaded
explicitly.  Dicts recurse per field with `path + [k]` and no index; lists
recurse per element passing only `index=i` (the path is left unchanged, so
the positional index is dropped as soon as the element is itself a dict or a
list); any other value is stored as a leaf. -/
def recurseS1 (o : Json) (path : List String) (index : Option Nat) (flat : List (String × Json)) :
    List (String × Json) :=
  match o with
  | .obj fs => recurseS1Fields fs path flat
  | .arr es => recurseS1Elems es 0 path flat
  | j => storeLeaf flat (leafKey path index) j

/-- The `for k, v in o.items()` loop of `recurse`. -/
def recurseS1Fields (fs : JsonObj) (path : List String) (flat : List (String × Json)) :
    List (String × Json) :=
  match fs with
  | .nil => flat
  | .cons k v rest => recurseS1Fields rest path (recurseS1 v (path ++ [k]) none flat)

/-- The `for i, item in enumerate(o)` loop of `recurse`; `i` is the 0-based
position of the head. -/
def recurseS1Elems (es : JsonList) (i : Nat) (path : List String) (flat : List (String × Json)) :
    List (String × Json) :=
  match es with
  | .nil => flat
  | .cons v rest => recurseS1Elems rest (i + 1) path (recurseS1 v path (some i) flat)

end

/-- Python truthiness of a JSON-shaped value (`None`, `False`, `0`, `""`,
`[]`, `{}` are falsy). -/
def truthy : Json → Bool
  | .null => false
  | .bool b => b
  | .num n => n != 0
  | .str s => s != ""
  | .arr es => es != .nil
  | .obj fs => fs != .nil

/-- Python's `fs.get(k, default)` on the fields of a dict: first binding of
`k`, or the default.  (An absent key and a key bound to `None` are both
reported as the default/`None`, exactly as in Python.) -/
def objGetD (fs : JsonObj) (k : String) (d : Json) : Json :=
  match fs with
  | .nil => d
  | .cons k1 v rest => if k1 == k then v else objGetD rest k d

/-- The content-locating expression of `flatten_json` in
`scholarone_gui_app.py`:

`obj.get("Response", {}).get("result", {}).get("submission") or
 obj.get("Response", {}).get("result", {}) or obj.get("result", {})`

`.get` on anything that is not a dict raises `AttributeError` (= `.error ()`
here); there is no exception handler in this variant.  `or` takes the first
Python-truthy operand, else the last operand. -/
def locateContent (o : Json) : Except Unit Json :=
  match o with
  | .obj fs =>
      match objGetD fs "Response" (.obj .nil) with
      | .obj afs =>
          match objGetD afs "result" (.obj .nil) with
          | .obj bfs =>
              let c := objGetD bfs "submission" .null
              .ok (if truthy c then c
                   else if truthy (.obj bfs) then .obj bfs
                   else objGetD fs "result" (.obj .nil))
          | _ => .error ()
      | _ => .error ()
  | _ => .error ()

/-- Embedding of `flatten_json(obj, prefix)` from `scholarone_gui_app.py`.
When the located content is a list, one row per element is produced by
`recurse(item, [])` into a fresh `flat = {"site_name": prefix}`; otherwise a
single row is produced by `recurse(obj, [])`.  A raised `AttributeError`
while locating the content propagates out as `.error ()`. -/
def flatten_json_s1 (o : Json) (pfx : String) : Except Unit (List (List (String × Json))) :=
  match locateContent o with
  | .error e => .error e
  | .ok content =>
      match content with
      | .arr items => .ok (items.toList.map (fun item => recurseS1 item [] none [("site_name", .str pfx)]))
      | _ => .ok [recurseS1 o [] none [("site_name", .str pfx)]]

/-! The `flatten_json` of `src/apps/gui/email_scholarone_gui_app.py`. -/

/-- The closure `_recurse(o, parent_key)` of `flatten_json` in
`email_scholarone_gui_app.py` is textually the recursion of
`src/core/flatten.py` specialized to the separator `"."` (dict fields via
`f"{parent_key}.{k}"`, list elements via `f"{parent_key}_{i}"` with
`enumerate(..., start=1)`, `items.update` merging, `items[parent_key] = o`
for scalars); it is therefore embedded as that specialization. -/
def emailRecurse (o : Json) (parentKey : String) : List (String × Json) :=
  flatten o parentKey "."

/-- The guarded lookup
`obj.get("Response", {}).get("result", {}).get("submission")` inside the
`try` block of the email variant's `flatten_json`; `.error ()` is a raised
(and later swallowed) `AttributeError`. -/
def emailChain (o : Json) : Except Unit Json :=
  match o with
  | .obj fs =>
      match objGetD fs "Response" (.obj .nil) with
      | .obj afs =>
          match objGetD afs "result" (.obj .nil) with
          | .obj bfs => .ok (objGetD bfs "submission" .null)
          | _ => .error ()
      | _ => .error ()
  | _ => .error ()

/-- Embedding of `flatten_json(obj, prefix)` from
`email_scholarone_gui_app.py`.  If the guarded lookup yields a list, one row
`{"site_name": prefix}` updated with `_recurse(item)` is produced per
element; on any other outcome — including a raised lookup, which the
`except Exception: pass` swallows — the whole payload is flattened as a
single fallback row. -/
def flatten_json_email (o : Json) (pfx : String) : List (List (String × Json)) :=
  match emailChain o with
  | .ok (.arr items) =>
      items.toList.map (fun item => dictUpdate [("site_name", .str pfx)] (emailRecurse item ""))
  | _ => [dictUpdate [("site_name", .str pfx)] (emailRecurse o "")]

/-! The batch planner. -/

/-- Fuel-driven chunking; `sliceChunks` passes `ids.length` of fuel, which
is enough whenever `n ≥ 1`. -/
def sliceChunksAux (n : Nat) : Nat → List String → List (List String)
  | 0, _ => []
  | _, [] => []
  | fuel + 1, x :: xs => (x :: xs).take n :: sliceChunksAux n fuel ((x :: xs).drop n)

/-- Embedding of `[ids[i:i+n] for i in range(0, len(ids), n)]`: the
successive length-`n` slices of `ids` (`n = 25` in `scholarone_gui_app.py`,
`batch_size` in `email_scholarone_gui_app.py`). -/
def sliceChunks (n : Nat) (ids : List String) : List (List String) :=
  sliceChunksAux n ids.length ids

/-- Embedding of the batching step of `submit_request` / `run_query` (with
the endpoint's `id_kind` truthy): `batches = [ids[i:i+n] ...]` when `ids` is
non-empty, else the null-batch sentinel `[[None]]`. -/
def planBatches (ids : List String) (n : Nat) : List (List (Option String)) :=
  if ids.isEmpty then [[none]]
  else (sliceChunks n ids).map (fun b => b.map some)

example : planBatches ["1", "2", "3", "4", "5"] 2
    = [[some "1", some "2"], [some "3", some "4"], [some "5"]] := by decide

example : planBatches [] 2 = [[none]] := by decide

example : recurseS1 (.obj (.cons "a" (.arr (.cons (.obj (.cons "b" (.num 1) .nil)) (.cons (.obj (.cons "b" (.num 2) .nil)) .nil))) .nil)) [] none [("site_name", .str "s")]
    = [("site_name", .str "s"), ("a.b", .num 1), ("a.b_2", .num 2)] := by decide

example : flatten_json_s1 (.obj (.cons "result" (.arr .nil) .nil)) "siteA" = .ok [] := rfl

example : flatten_json_s1 .null "siteA" = .error () := rfl

example : flatten_json_email (.obj (.cons "Response" (.obj (.cons "result" (.obj (.cons "submission" (.arr .nil) .nil)) .nil)) .nil)) "siteA" = [] := by decide

example : flatten_json_email (.obj (.cons "foo" (.str "bar") .nil)) "siteB"
    = [[("site_name", .str "siteB"), ("foo", .str "bar")]] := by decide

/-! Lemmas about the dict model. -/

theorem containsKey_iff (d : List (String × Json)) (k : String) :
    containsKey d k = true ↔ ∃ kv ∈ d, kv.1 = k := by
  simp [containsKey, List.any_eq_true]

theorem dictInsert_of_not_contains (d : List (String × Json)) (k : String) (v : Json)
    (h : containsKey d k = false) : dictInsert d k v = d ++ [(k, v)] := by
  simp [dictInsert, h]

theorem length_dictInsert_le (d : List (String × Json)) (k : String) (v : Json) :
    (dictInsert d k v).length ≤ d.length + 1 := by
  unfold dictInsert
  split
  · simp
  · simp

theorem containsKey_dictInsert_of (d : List (String × Json)) (k k1 : String) (v : Json)
    (h : containsKey d k1 = true) : containsKey (dictInsert d k v) k1 = true := by
  rcases (containsKey_iff d k1).1 h with ⟨kv, hmem, heq⟩
  unfold dictInsert
  split
  · refine (containsKey_iff _ _).2 ?_
    refine ⟨if kv.1 == k then (kv.1, v) else kv, ?_, ?_⟩
    · exact List.mem_map_of_mem _ hmem
    · split <;> simp [heq]
  · refine (containsKey_iff _ _).2 ⟨kv, ?_, heq⟩
    exact List.mem_append_left _ hmem

theorem mem_dictInsert_prop (P : Json → Prop) (d : List (String × Json)) (k : String) (v : Json)
    (hd : ∀ kv ∈ d, P kv.2) (hv : P v) : ∀ kv ∈ dictInsert d k v, P kv.2 := by
  intro kv hkv
  unfold dictInsert at hkv
  split at hkv
  · rcases List.mem_map.1 hkv with ⟨kv0, hkv0, heq⟩
    by_cases hb : kv0.1 == k
    · simp [hb] at heq; subst heq; exact hv
    · simp [hb] at heq; subst heq; exact hd kv0 hkv0
  · rcases List.mem_append.1 hkv with h1 | h1
    · exact hd kv h1
    · simp at h1; subst h1; exact hv

theorem length_dictUpdate_le (sub d : List (String × Json)) :
    (dictUpdate d sub).length ≤ d.length + sub.length := by
  induction sub generalizing d with
  | nil => simp [dictUpdate]
  | cons kv rest ih =>
      have h1 : (dictUpdate d (kv :: rest)) = dictUpdate (dictInsert d kv.1 kv.2) rest := by
        simp [dictUpdate]
      rw [h1]
      calc (dictUpdate (dictInsert d kv.1 kv.2) rest).length
          ≤ (dictInsert d kv.1 kv.2).length + rest.length := ih _
        _ ≤ (d.length + 1) + rest.length := by
              exact Nat.add_le_add_right (length_dictInsert_le d kv.1 kv.2) _
        _ = d.length + (kv :: rest).length := by simp [List.length_cons]; omega

theorem containsKey_dictUpdate_of (sub d : List (String × Json)) (k : String)
    (h : containsKey d k = true) : containsKey (dictUpdate d sub) k = true := by
  induction sub generalizing d with
  | nil => simpa [dictUpdate] using h
  | cons kv rest ih =>
      have h1 : (dictUpdate d (kv :: rest)) = dictUpdate (dictInsert d kv.1 kv.2) rest := by
        simp [dictUpdate]
      rw [h1]
      exact ih _ (containsKey_dictInsert_of d kv.1 k kv.2 h)

theorem mem_dictUpdate_prop (P : Json → Prop) (sub d : List (String × Json))
    (hd : ∀ kv ∈ d, P kv.2) (hsub : ∀ kv ∈ sub, P kv.2) :
    ∀ kv ∈ dictUpdate d sub, P kv.2 := by
  induction sub generalizing d with
  | nil => simpa [dictUpdate] using hd
  | cons kv0 rest ih =>
      have h1 : (dictUpdate d (kv0 :: rest)) = dictUpdate (dictInsert d kv0.1 kv0.2) rest := by
        simp [dictUpdate]
      rw [h1]
      refine ih _ ?_ ?_
      · exact mem_dictInsert_prop P d kv0.1 kv0.2 hd (hsub kv0 (by simp))
      · intro kv hkv; exact hsub kv (by simp [hkv])

/-! Correctness of the decimal numeral writer `decRepr` (needed for the
collision-suffix scan: distinct suffixes give distinct keys). -/

theorem digitVal_digitChar : ∀ n < 10, digitVal (digitChar n) = n := by decide

theorem valOfDigits_append_digit (ds : List Char) (c : Char) :
    valOfDigits (ds ++ [c]) = valOfDigits ds * 10 + digitVal c := by
  simp [valOfDigits, List.foldl_append]

theorem valOfDigits_decDigitsAux (fuel n : Nat) (h : n < fuel) :
    valOfDigits (decDigitsAux fuel n) = n := by
  induction fuel generalizing n with
  | zero => omega
  | succ fuel ih =>
      by_cases h10 : n < 10
      · simp [decDigitsAux, h10, valOfDigits, digitVal_digitChar n h10]
      · have hrec : decDigitsAux (fuel + 1) n
            = decDigitsAux fuel (n / 10) ++ [digitChar (n % 10)] := by
          simp [decDigitsAux, h10]
        rw [hrec, valOfDigits_append_digit]
        have hdiv : n / 10 < fuel := by omega
        rw [ih (n / 10) hdiv, digitVal_digitChar (n % 10) (Nat.mod_lt n (by omega))]
        omega

theorem decRepr_inj (m n : Nat) (h : decRepr m = decRepr n) : m = n := by
  have hdata : decDigitsAux (m + 1) m = decDigitsAux (n + 1) n := by
    have := congrArg String.data h
    simpa [decRepr] using this
  have h1 := valOfDigits_decDigitsAux (m + 1) m (by omega)
  have h2 := valOfDigits_decDigitsAux (n + 1) n (by omega)
  rw [← h1, ← h2, hdata]

theorem sfx_inj (base : String) (s t : Nat) (h : sfx base s = sfx base t) : s = t := by
  have hdata := congrArg String.data h
  simp only [sfx, String.data_append] at hdata
  have hrep : (decRepr s).data = (decRepr t).data := List.append_cancel_left hdata
  exact decRepr_inj s t (String.ext hrep)

/-! Correctness of the collision-suffix scan. -/

theorem exists_fresh_sfx (flat : List (String × Json)) (base : String) (s : Nat) :
    ∃ t, s ≤ t ∧ t < s + (flat.length + 1) ∧ containsKey flat (sfx base t) = false := by
  by_contra hcon
  push_neg at hcon
  have hall : ∀ t, s ≤ t → t < s + (flat.length + 1) → containsKey flat (sfx base t) = true := by
    intro t h1 h2
    have := hcon t h1 h2
    cases hc : containsKey flat (sfx base t) with
    | false => exact absurd hc this
    | true => rfl
  set L : List String := (List.range (flat.length + 1)).map (fun j => sfx base (s + j)) with hL
  have hnodup : L.Nodup := by
    refine List.Nodup.map ?_ (List.nodup_range _)
    intro a b hab
    have := sfx_inj base (s + a) (s + b) hab
    omega
  have hsub : L ⊆ flat.map Prod.fst := by
    intro x hx
    rcases List.mem_map.1 hx with ⟨j, hj, hx1⟩
    have hj1 : j < flat.length + 1 := List.mem_range.1 hj
    have hck : containsKey flat (sfx base (s + j)) = true := hall (s + j) (by omega) (by omega)
    rcases (containsKey_iff _ _).1 hck with ⟨kv, hmem, heq⟩
    subst hx1
    rw [← heq]
    exact List.mem_map_of_mem _ hmem
  have hle : L.length ≤ (flat.map Prod.fst).length :=
    (List.subperm_of_subset hnodup hsub).length_le
  simp [hL] at hle

theorem freshKeyAux_spec (flat : List (String × Json)) (base : String) :
    ∀ fuel s, (∃ t, s ≤ t ∧ t < s + fuel ∧ containsKey flat (sfx base t) = false) →
      ∃ t0, s ≤ t0 ∧ containsKey flat (sfx base t0) = false ∧
        (∀ u, s ≤ u → u < t0 → containsKey flat (sfx base u) = true) ∧
        freshKeyAux flat base s fuel = sfx base t0 := by
  intro fuel
  induction fuel with
  | zero =>
      intro s hex
      rcases hex with ⟨t, h1, h2, _⟩
      omega
  | succ fuel ih =>
      intro s hex
      by_cases hc : containsKey flat (sfx base s) = true
      · have hex1 : ∃ t, s + 1 ≤ t ∧ t < (s + 1) + fuel ∧ containsKey flat (sfx base t) = false := by
          rcases hex with ⟨t, h1, h2, h3⟩
          refine ⟨t, ?_, by omega, h3⟩
          rcases Nat.lt_or_ge s t with hlt | hge
          · omega
          · have : t = s := by omega
            rw [this] at h3
            rw [h3] at hc
            exact absurd hc (by simp)
        rcases ih (s + 1) hex1 with ⟨t0, ht1, ht2, ht3, ht4⟩
        refine ⟨t0, by omega, ht2, ?_, ?_⟩
        · intro u hu1 hu2
          rcases Nat.lt_or_ge u (s + 1) with hlt | hge
          · have : u = s := by omega
            rw [this]; exact hc
          · exact ht3 u hge hu2
        · simpa [freshKeyAux, hc] using ht4
      · have hc1 : containsKey flat (sfx base s) = false := by
          cases h : containsKey flat (sfx base s) with
          | false => rfl
          | true => exact absurd h hc
        refine ⟨s, le_refl s, hc1, ?_, ?_⟩
        · intro u hu1 hu2; omega
        · simp [freshKeyAux, hc1]

theorem freshKey_spec (flat : List (String × Json)) (base : String) :
    ∃ t0, 2 ≤ t0 ∧ containsKey flat (sfx base t0) = false ∧
      (∀ u, 2 ≤ u → u < t0 → containsKey flat (sfx base u) = true) ∧
      freshKey flat base = sfx base t0 := by
  have hex := exists_fresh_sfx flat base 2
  exact freshKeyAux_spec flat base (flat.length + 1) 2 hex

/-! Structural lemmas about `flatten`. -/

mutual

theorem flatten_length_le (o : Json) (p sep : String) :
    (flatten o p sep).length ≤ leafCount o := by
  match o with
  | .obj fs =>
      have h := flattenFields_length_le fs p sep []
      simpa [flatten, leafCount] using h
  | .arr es =>
      have h := flattenElems_length_le es 1 p sep []
      simpa [flatten, leafCount] using h
  | .null => simp [flatten, leafCount]
  | .bool _ => simp [flatten, leafCount]
  | .num _ => simp [flatten, leafCount]
  | .str _ => simp [flatten, leafCount]

theorem flattenFields_length_le (fs : JsonObj) (p sep : String) (items : List (String × Json)) :
    (flattenFields fs p sep items).length ≤ items.length + leafCountFields fs := by
  match fs with
  | .nil => simp [flattenFields, leafCountFields]
  | .cons k v rest =>
      have hrec := flattenFields_length_le rest p sep
        (dictUpdate items (flatten v (if p = "" then k else p ++ sep ++ k) sep))
      have hupd := length_dictUpdate_le (flatten v (if p = "" then k else p ++ sep ++ k) sep) items
      have hv := flatten_length_le v (if p = "" then k else p ++ sep ++ k) sep
      simp only [flattenFields, leafCountFields]
      omega

theorem flattenElems_length_le (es : JsonList) (i : Nat) (p sep : String)
    (items : List (String × Json)) :
    (flattenElems es i p sep items).length ≤ items.length + leafCountElems es := by
  match es with
  | .nil => simp [flattenElems, leafCountElems]
  | .cons v rest =>
      have hrec := flattenElems_length_le rest (i + 1) p sep
        (dictUpdate items (flatten v (if p = "" then decRepr i else p ++ "_" ++ decRepr i) sep))
      have hupd := length_dictUpdate_le
        (flatten v (if p = "" then decRepr i else p ++ "_" ++ decRepr i) sep) items
      have hv := flatten_length_le v (if p = "" then decRepr i else p ++ "_" ++ decRepr i) sep
      simp only [flattenElems, leafCountElems]
      omega

end

mutual

theorem flatten_values_scalar (o : Json) (p sep : String) :
    ∀ kv ∈ flatten o p sep, isScalar kv.2 = true := by
  match o with
  | .obj fs =>
      have h := flattenFields_values_scalar fs p sep [] (by intro kv hkv; simp at hkv)
      simpa [flatten] using h
  | .arr es =>
      have h := flattenElems_values_scalar es 1 p sep [] (by intro kv hkv; simp at hkv)
      simpa [flatten] using h
  | .null => intro kv hkv; simp [flatten] at hkv; simp [hkv, isScalar]
  | .bool b => intro kv hkv; simp [flatten] at hkv; simp [hkv, isScalar]
  | .num n => intro kv hkv; simp [flatten] at hkv; simp [hkv, isScalar]
  | .str s => intro kv hkv; simp [flatten] at hkv; simp [hkv, isScalar]

theorem flattenFields_values_scalar (fs : JsonObj) (p sep : String)
    (items : List (String × Json)) (hitems : ∀ kv ∈ items, isScalar kv.2 = true) :
    ∀ kv ∈ flattenFields fs p sep items, isScalar kv.2 = true := by
  match fs with
  | .nil => simpa [flattenFields] using hitems
  | .cons k v rest =>
      have hv := flatten_values_scalar v (if p = "" then k else p ++ sep ++ k) sep
      have hupd := mem_dictUpdate_prop (fun j => isScalar j = true)
        (flatten v (if p = "" then k else p ++ sep ++ k) sep) items hitems hv
      have h := flattenFields_values_scalar rest p sep _ hupd
      simpa [flattenFields] using h

theorem flattenElems_values_scalar (es : JsonList) (i : Nat) (p sep : String)
    (items : List (String × Json)) (hitems : ∀ kv ∈ items, isScalar kv.2 = true) :
    ∀ kv ∈ flattenElems es i p sep items, isScalar kv.2 = true := by
  match es with
  | .nil => simpa [flattenElems] using hitems
  | .cons v rest =>
      have hv := flatten_values_scalar v (if p = "" then decRepr i else p ++ "_" ++ decRepr i) sep
      have hupd := mem_dictUpdate_prop (fun j => isScalar j = true)
        (flatten v (if p = "" then decRepr i else p ++ "_" ++ decRepr i) sep) items hitems hv
      have h := flattenElems_values_scalar rest (i + 1) p sep _ hupd
      simpa [flattenElems] using h

end

/-! Fold characterizations of `flatten` (the recursion scheme the spec
describes). -/

theorem flattenFields_eq_foldl (fs : JsonObj) (p sep : String) (items : List (String × Json)) :
    flattenFields fs p sep items
      = fs.toList.foldl
          (fun acc kv => dictUpdate acc (flatten kv.2 (if p = "" then kv.1 else p ++ sep ++ kv.1) sep))
          items := by
  match fs with
  | .nil => simp [flattenFields, JsonObj.toList]
  | .cons k v rest =>
      have ih := flattenFields_eq_foldl rest p sep
        (dictUpdate items (flatten v (if p = "" then k else p ++ sep ++ k) sep))
      simp only [flattenFields, JsonObj.toList, List.foldl_cons]
      exact ih

theorem flattenElems_eq_foldl (es : JsonList) (i : Nat) (p sep : String)
    (items : List (String × Json)) :
    flattenElems es i p sep items
      = (es.toList.enumFrom i).foldl
          (fun acc iv => dictUpdate acc (flatten iv.2 (if p = "" then decRepr iv.1 else p ++ "_" ++ decRepr iv.1) sep))
          items := by
  match es with
  | .nil => simp [flattenElems, JsonList.toList]
  | .cons v rest =>
      have ih := flattenElems_eq_foldl rest (i + 1) p sep
        (dictUpdate items (flatten v (if p = "" then decRepr i else p ++ "_" ++ decRepr i) sep))
      simp only [flattenElems, JsonList.toList, List.enumFrom, List.foldl_cons]
      exact ih

/-! Lemmas about the batch chunking. -/

theorem sliceChunksAux_nil (n fuel : Nat) : sliceChunksAux n fuel [] = [] := by
  cases fuel <;> simp [sliceChunksAux]

theorem sliceChunksAux_join (n : Nat) (hn : 1 ≤ n) :
    ∀ fuel ids, ids.length ≤ fuel → (sliceChunksAux n fuel ids).flatten = ids := by
  intro fuel
  induction fuel with
  | zero =>
      intro ids hlen
      have : ids = [] := List.length_eq_zero.1 (by omega)
      simp [this, sliceChunksAux]
  | succ fuel ih =>
      intro ids hlen
      match ids with
      | [] => simp [sliceChunksAux]
      | x :: xs =>
          have hdrop : ((x :: xs).drop n).length ≤ fuel := by
            simp only [List.length_drop, List.length_cons]
            simp only [List.length_cons] at hlen
            omega
          simp only [sliceChunksAux, List.flatten_cons]
          rw [ih _ hdrop]
          exact List.take_append_drop n (x :: xs)

theorem sliceChunksAux_mem_length (n : Nat) :
    ∀ fuel ids b, b ∈ sliceChunksAux n fuel ids → b.length ≤ n := by
  intro fuel
  induction fuel with
  | zero => intro ids b hb; simp [sliceChunksAux] at hb
  | succ fuel ih =>
      intro ids b hb
      match ids with
      | [] => simp [sliceChunksAux] at hb
      | x :: xs =>
          simp only [sliceChunksAux, List.mem_cons] at hb
          rcases hb with hb | hb
          · subst hb
            simp [List.length_take]
          · exact ih _ b hb

theorem sliceChunksAux_dropLast (n : Nat) (hn : 1 ≤ n) :
    ∀ fuel ids, ids.length ≤ fuel →
      ∀ b ∈ (sliceChunksAux n fuel ids).dropLast, b.length = n := by
  intro fuel
  induction fuel with
  | zero =>
      intro ids hlen b hb
      have : ids = [] := List.length_eq_zero.1 (by omega)
      subst this
      simp [sliceChunksAux] at hb
  | succ fuel ih =>
      intro ids hlen b hb
      match ids with
      | [] => simp [sliceChunksAux] at hb
      | x :: xs =>
          simp only [sliceChunksAux] at hb
          cases hrest : sliceChunksAux n fuel ((x :: xs).drop n) with
          | nil => rw [hrest] at hb; simp at hb
          | cons r rs =>
              rw [hrest] at hb
              rw [List.dropLast_cons_of_ne_nil (by simp)] at hb
              rcases List.mem_cons.1 hb with hb1 | hb1
              · subst hb1
                have hne : (x :: xs).drop n ≠ [] := by
                  intro hcon
                  rw [hcon, sliceChunksAux_nil] at hrest
                  exact absurd hrest.symm (by simp)
                have hgt : n < (x :: xs).length := by
                  by_contra hle
                  push_neg at hle
                  exact hne (List.drop_eq_nil_of_le hle)
                simp only [List.length_take, List.length_cons]
                simp only [List.length_cons] at hgt
                omega
              · have hdrop : ((x :: xs).drop n).length ≤ fuel := by
                  simp only [List.length_drop, List.length_cons]
                  simp only [List.length_cons] at hlen
                  omega
                have := ih _ hdrop b
                rw [hrest] at this
                exact this hb1

/-! Structural lemmas about `recurseS1`. -/

theorem containsKey_storeLeaf_of (flat : List (String × Json)) (fk k : String) (o : Json)
    (h : containsKey flat k = true) : containsKey (storeLeaf flat fk o) k = true := by
  unfold storeLeaf
  split
  · exact containsKey_dictInsert_of flat _ k o h
  · exact containsKey_dictInsert_of flat _ k o h

mutual

theorem recurseS1_containsKey (o : Json) (path : List String) (idx : Option Nat)
    (flat : List (String × Json)) (k : String) (h : containsKey flat k = true) :
    containsKey (recurseS1 o path idx flat) k = true := by
  match o with
  | .obj fs =>
      have h1 := recurseS1Fields_containsKey fs path flat k h
      simpa [recurseS1] using h1
  | .arr es =>
      have h1 := recurseS1Elems_containsKey es 0 path flat k h
      simpa [recurseS1] using h1
  | .null => simpa [recurseS1] using containsKey_storeLeaf_of flat (leafKey path idx) k _ h
  | .bool b => simpa [recurseS1] using containsKey_storeLeaf_of flat (leafKey path idx) k _ h
  | .num n => simpa [recurseS1] using containsKey_storeLeaf_of flat (leafKey path idx) k _ h
  | .str s => simpa [recurseS1] using containsKey_storeLeaf_of flat (leafKey path idx) k _ h

theorem recurseS1Fields_containsKey (fs : JsonObj) (path : List String)
    (flat : List (String × Json)) (k : String) (h : containsKey flat k = true) :
    containsKey (recurseS1Fields fs path flat) k = true := by
  match fs with
  | .nil => simpa [recurseS1Fields] using h
  | .cons k1 v rest =>
      have h1 := recurseS1_containsKey v (path ++ [k1]) none flat k h
      have h2 := recurseS1Fields_containsKey rest path (recurseS1 v (path ++ [k1]) none flat) k h1
      simpa [recurseS1Fields] using h2

theorem recurseS1Elems_containsKey (es : JsonList) (i : Nat) (path : List String)
    (flat : List (String × Json)) (k : String) (h : containsKey flat k = true) :
    containsKey (recurseS1Elems es i path flat) k = true := by
  match es with
  | .nil => simpa [recurseS1Elems] using h
  | .cons v rest =>
      have h1 := recurseS1_containsKey v path (some i) flat k h
      have h2 := recurseS1Elems_containsKey rest (i + 1) path (recurseS1 v path (some i) flat) k h1
      simpa [recurseS1Elems] using h2

end

theorem recurseS1_scalar (o : Json) (path : List String) (idx : Option Nat)
    (flat : List (String × Json)) (h : isScalar o = true) :
    recurseS1 o path idx flat = storeLeaf flat (leafKey path idx) o := by
  cases o with
  | null => rfl
  | bool b => rfl
  | num n => rfl
  | str s => rfl
  | arr es => simp [isScalar] at h
  | obj fs => simp [isScalar] at h

theorem storeLeaf_collision (flat : List (String × Json)) (fk : String) (o : Json)
    (h : containsKey flat fk = true) :
    ∃ s, 2 ≤ s ∧ containsKey flat (sfx fk s) = false ∧
      (∀ u, 2 ≤ u → u < s → containsKey flat (sfx fk u) = true) ∧
      storeLeaf flat fk o = flat ++ [(sfx fk s, o)] := by
  rcases freshKey_spec flat fk with ⟨t0, ht2, habs, hleast, heq⟩
  refine ⟨t0, ht2, habs, hleast, ?_⟩
  unfold storeLeaf
  rw [if_pos h, heq]
  exact dictInsert_of_not_contains flat (sfx fk t0) o habs

/-! Claims. -/

/-- Claim C3, counterexample: the number of entries of `flatten(v)` does NOT
always equal the number of scalar leaves of `v`.  With
`v = {"a_1": 0, "a": [1]}` the leaf `0` lands at key `"a_1"` and the list
element `1` also lands at key `"a_1"`, and the `items.update` merge silently
overwrites, so `flatten(v)` has 1 entry while `v` has 2 scalar leaves. -/
theorem claim_C3_counterexample :
    ¬ ((flatten (.obj (.cons "a_1" (.num 0) (.cons "a" (.arr (.cons (.num 1) .nil)) .nil))) "" ".").length
        = leafCount (.obj (.cons "a_1" (.num 0) (.cons "a" (.arr (.cons (.num 1) .nil)) .nil)))) := by
  decide

/-- Claim C3, amended: the number of entries in `flatten(v)` is AT MOST the
number of scalar leaves of `v` (key collisions across sibling branches are
merged by the later write), and the spec's example has exactly its 2 entries
`a_1 = 1` and `a_2.b = 2`. -/
theorem claim_C3 :
    (∀ (o : Json) (p sep : String), (flatten o p sep).length ≤ leafCount o) ∧
    flatten (.obj (.cons "a" (.arr (.cons (.num 1) (.cons (.obj (.cons "b" (.num 2) .nil)) .nil))) .nil)) "" "."
      = [("a_1", .num 1), ("a_2.b", .num 2)] := by
  constructor
  · intro o p sep
    exact flatten_length_le o p sep
  · decide

/-- Claim C4: `flatten` of `src/core/flatten.py` follows exactly the
specified recursion — a mapping folds its fields in order, recursing with
key `pathPrefix ++ sep ++ k` (just `k` on an empty prefix) and merging into
the accumulator; a non-string sequence folds its elements with 1-based
positions `i` and key `pathPrefix ++ "_" ++ i` (just `i` on an empty
prefix); any other value records `accumulator[pathPrefix] = value`; and
empty mappings and sequences contribute no keys. -/
theorem claim_C4 :
    (∀ (fs : JsonObj) (p sep : String),
        flatten (.obj fs) p sep
          = fs.toList.foldl
              (fun acc kv => dictUpdate acc (flatten kv.2 (if p = "" then kv.1 else p ++ sep ++ kv.1) sep))
              []) ∧
    (∀ (es : JsonList) (p sep : String),
        flatten (.arr es) p sep
          = (es.toList.enumFrom 1).foldl
              (fun acc iv => dictUpdate acc (flatten iv.2 (if p = "" then decRepr iv.1 else p ++ "_" ++ decRepr iv.1) sep))
              []) ∧
    (∀ (o : Json) (p sep : String), isScalar o = true → flatten o p sep = [(p, o)]) ∧
    (∀ (p sep : String), flatten (.obj .nil) p sep = [] ∧ flatten (.arr .nil) p sep = []) := by
  refine ⟨?_, ?_, ?_, ?_⟩
  · intro fs p sep
    simpa [flatten] using flattenFields_eq_foldl fs p sep []
  · intro es p sep
    simpa [flatten] using flattenElems_eq_foldl es 1 p sep []
  · intro o p sep h
    cases o with
    | null => rfl
    | bool b => rfl
    | num n => rfl
    | str s => rfl
    | arr es => simp [isScalar] at h
    | obj fs => simp [isScalar] at h
  · intro p sep
    exact ⟨rfl, rfl⟩

/-- Claim C4, witness: the scalar clause at the concrete scalar `"x"` with
path prefix `"p"`. -/
theorem claim_C4_witness :
    isScalar (.str "x") = true ∧ flatten (.str "x") "p" "." = [("p", .str "x")] :=
  ⟨rfl, claim_C4.2.2.1 (.str "x") "p" "." rfl⟩

/-- Claim C7: `flatten` terminates on every JSON value (it is accepted by
Lean as a total structural recursion over the `Json` family), and every
value stored in the returned mapping is a scalar — never a mapping or a
(non-string) sequence. -/
theorem claim_C7 (o : Json) (p sep : String) :
    ∀ kv ∈ flatten o p sep, isScalar kv.2 = true :=
  flatten_values_scalar o p sep

/-- Claim C7, witness: the membership hypothesis discharged on the spec's
example value. -/
theorem claim_C7_witness :
    (("a_1", Json.num 1) ∈ flatten (.obj (.cons "a" (.arr (.cons (.num 1) (.cons (.obj (.cons "b" (.num 2) .nil)) .nil))) .nil)) "" ".") ∧
    isScalar (Json.num 1) = true := by
  refine ⟨by decide, ?_⟩
  exact claim_C7 (.obj (.cons "a" (.arr (.cons (.num 1) (.cons (.obj (.cons "b" (.num 2) .nil)) .nil))) .nil))
    "" "." ("a_1", Json.num 1) (by decide)

/-- Claim C10: for every scalar value `v` (neither a mapping nor a
non-string sequence), `flatten(v)` with the default empty path prefix (and
default separator `"."`) is the single-entry mapping `{"": v}`. -/
theorem claim_C10 (v : Json) (h : isScalar v = true) : flatten v "" "." = [("", v)] := by
  cases v with
  | null => rfl
  | bool b => rfl
  | num n => rfl
  | str s => rfl
  | arr es => simp [isScalar] at h
  | obj fs => simp [isScalar] at h

/-- Claim C10, witness: the top-level scalar `42`. -/
theorem claim_C10_witness :
    isScalar (.num 42) = true ∧ flatten (.num 42) "" "." = [("", .num 42)] :=
  ⟨rfl, claim_C10 (.num 42) rfl⟩

/-- Claim C5, counterexample: in `flatten_json.recurse` of
`scholarone_gui_app.py` the positional index is NOT carried into the key
when a sequence element is itself a mapping.  For
`{"a": [{"b": 1}, {"b": 2}]}` the two leaves are stored under `"a.b"` and
the collision key `"a.b_2"`, not under `"a_1.b"` and `"a_2.b"` as the
claimed key shape requires. -/
theorem claim_C5_counterexample :
    recurseS1 (.obj (.cons "a" (.arr (.cons (.obj (.cons "b" (.num 1) .nil)) (.cons (.obj (.cons "b" (.num 2) .nil)) .nil))) .nil)) [] none [("site_name", .str "s")]
      = [("site_name", .str "s"), ("a.b", .num 1), ("a.b_2", .num 2)] ∧
    containsKey (recurseS1 (.obj (.cons "a" (.arr (.cons (.obj (.cons "b" (.num 1) .nil)) (.cons (.obj (.cons "b" (.num 2) .nil)) .nil))) .nil)) [] none [("site_name", .str "s")]) "a_1.b" = false := by
  constructor
  · decide
  · decide

/-- Claim C5, amended: in `flatten_json.recurse` of `scholarone_gui_app.py`
the `_i` suffix (1-based position `i`) is appended to the joined path only
when the sequence element at position `i` is itself a scalar; when the
element is a mapping or a sequence the positional index is dropped (the
recursive call passes the path unchanged and the index is not propagated),
and key uniqueness is restored by the numeric collision-suffix policy
instead. -/
theorem claim_C5 :
    (∀ (o : Json) (path : List String) (i : Nat) (flat : List (String × Json)),
        isScalar o = true →
        recurseS1 o path (some i) flat = storeLeaf flat (sfx (joinDot path) (i + 1)) o) ∧
    (∀ (fs : JsonObj) (path : List String) (i : Nat) (flat : List (String × Json)),
        recurseS1 (.obj fs) path (some i) flat = recurseS1 (.obj fs) path none flat) ∧
    (∀ (es : JsonList) (path : List String) (i : Nat) (flat : List (String × Json)),
        recurseS1 (.arr es) path (some i) flat = recurseS1 (.arr es) path none flat) := by
  refine ⟨?_, ?_, ?_⟩
  · intro o path i flat h
    have heq := recurseS1_scalar o path (some i) flat h
    simpa [leafKey] using heq
  · intro fs path i flat
    rfl
  · intro es path i flat
    rfl

/-- Claim C5, witness: the scalar clause at element value `7`, position
index `0` (1-based position `1`), path `["a"]`. -/
theorem claim_C5_witness :
    isScalar (.num 7) = true ∧
    recurseS1 (.num 7) ["a"] (some 0) [] = storeLeaf [] (sfx (joinDot ["a"]) 1) (.num 7) :=
  ⟨rfl, claim_C5.1 (.num 7) ["a"] 0 [] rfl⟩

/-- Claim C6: in the collision variant (`flatten_json.recurse` of
`scholarone_gui_app.py`), when the computed leaf key is already present in
the row dict, the scalar leaf is stored under the key suffixed with `_s`
for the smallest `s ≥ 2` whose suffixed key is not yet present; the
original dict is kept unchanged as a prefix (no entry is overwritten) and
exactly one new entry is appended. -/
theorem claim_C6 (flat : List (String × Json)) (path : List String) (idx : Option Nat)
    (o : Json) (hsc : isScalar o = true)
    (hcol : containsKey flat (leafKey path idx) = true) :
    ∃ s, 2 ≤ s ∧ containsKey flat (sfx (leafKey path idx) s) = false ∧
      (∀ u, 2 ≤ u → u < s → containsKey flat (sfx (leafKey path idx) u) = true) ∧
      recurseS1 o path idx flat = flat ++ [(sfx (leafKey path idx) s, o)] ∧
      (recurseS1 o path idx flat).length = flat.length + 1 := by
  rcases storeLeaf_collision flat (leafKey path idx) o hcol with ⟨s, hs2, habs, hleast, heq⟩
  refine ⟨s, hs2, habs, hleast, ?_, ?_⟩
  · rw [recurseS1_scalar o path idx flat hsc]
    exact heq
  · rw [recurseS1_scalar o path idx flat hsc, heq]
    simp

/-- Claim C6, witness: leaf `7` at the already-present key `"k"` in a dict
that also contains `"k_2"`; the scan lands on suffix `3`. -/
theorem claim_C6_witness :
    isScalar (.num 7) = true ∧
    containsKey [("k", Json.num 0), ("k_2", Json.num 0)] (leafKey ["k"] none) = true ∧
    ∃ s, 2 ≤ s ∧
      containsKey [("k", Json.num 0), ("k_2", Json.num 0)] (sfx (leafKey ["k"] none) s) = false ∧
      (∀ u, 2 ≤ u → u < s →
        containsKey [("k", Json.num 0), ("k_2", Json.num 0)] (sfx (leafKey ["k"] none) u) = true) ∧
      recurseS1 (.num 7) ["k"] none [("k", Json.num 0), ("k_2", Json.num 0)]
        = [("k", Json.num 0), ("k_2", Json.num 0)] ++ [(sfx (leafKey ["k"] none) s, .num 7)] ∧
      (recurseS1 (.num 7) ["k"] none [("k", Json.num 0), ("k_2", Json.num 0)]).length
        = [("k", Json.num 0), ("k_2", Json.num 0)].length + 1 :=
  ⟨rfl, by decide, claim_C6 [("k", Json.num 0), ("k_2", Json.num 0)] ["k"] none (.num 7) rfl (by decide)⟩

/-- Claim C8: every row record produced by `flatten_json` — in either GUI
implementation, whether the envelope record list was found or the fallback
was taken — contains the reserved key `site_name`. -/
theorem claim_C8 :
    (∀ (o : Json) (pfx : String) (rows : List (List (String × Json))) (row : List (String × Json)),
        flatten_json_s1 o pfx = .ok rows → row ∈ rows → containsKey row "site_name" = true) ∧
    (∀ (o : Json) (pfx : String) (row : List (String × Json)),
        row ∈ flatten_json_email o pfx → containsKey row "site_name" = true) := by
  constructor
  · intro o pfx rows row hok hrow
    have hinit : ∀ q : String, containsKey [("site_name", Json.str q)] "site_name" = true := by
      intro q; simp [containsKey]
    unfold flatten_json_s1 at hok
    cases hl : locateContent o with
    | error e => rw [hl] at hok; exact absurd hok (by simp)
    | ok content =>
        rw [hl] at hok
        cases content with
        | arr items =>
            simp only [Except.ok.injEq] at hok
            rw [← hok] at hrow
            rcases List.mem_map.1 hrow with ⟨item, _, hitem⟩
            rw [← hitem]
            exact recurseS1_containsKey item [] none _ "site_name" (hinit pfx)
        | null =>
            simp only [Except.ok.injEq] at hok
            rw [← hok] at hrow
            simp only [List.mem_singleton] at hrow
            rw [hrow]
            exact recurseS1_containsKey o [] none _ "site_name" (hinit pfx)
        | bool b =>
            simp only [Except.ok.injEq] at hok
            rw [← hok] at hrow
            simp only [List.mem_singleton] at hrow
            rw [hrow]
            exact recurseS1_containsKey o [] none _ "site_name" (hinit pfx)
        | num n =>
            simp only [Except.ok.injEq] at hok
            rw [← hok] at hrow
            simp only [List.mem_singleton] at hrow
            rw [hrow]
            exact recurseS1_containsKey o [] none _ "site_name" (hinit pfx)
        | str s =>
            simp only [Except.ok.injEq] at hok
            rw [← hok] at hrow
            simp only [List.mem_singleton] at hrow
            rw [hrow]
            exact recurseS1_containsKey o [] none _ "site_name" (hinit pfx)
        | obj fs =>
            simp only [Except.ok.injEq] at hok
            rw [← hok] at hrow
            simp only [List.mem_singleton] at hrow
            rw [hrow]
            exact recurseS1_containsKey o [] none _ "site_name" (hinit pfx)
  · intro o pfx row hrow
    have hinit : containsKey [("site_name", Json.str pfx)] "site_name" = true := by
      simp [containsKey]
    unfold flatten_json_email at hrow
    cases hc : emailChain o with
    | error e =>
        rw [hc] at hrow
        simp only [List.mem_singleton] at hrow
        rw [hrow]
        exact containsKey_dictUpdate_of _ _ "site_name" hinit
    | ok content =>
        rw [hc] at hrow
        cases content with
        | arr items =>
            rcases List.mem_map.1 hrow with ⟨item, _, hitem⟩
            rw [← hitem]
            exact containsKey_dictUpdate_of _ _ "site_name" hinit
        | null =>
            simp only [List.mem_singleton] at hrow
            rw [hrow]
            exact containsKey_dictUpdate_of _ _ "site_name" hinit
        | bool b =>
            simp only [List.mem_singleton] at hrow
            rw [hrow]
            exact containsKey_dictUpdate_of _ _ "site_name" hinit
        | num n =>
            simp only [List.mem_singleton] at hrow
            rw [hrow]
            exact containsKey_dictUpdate_of _ _ "site_name" hinit
        | str s =>
            simp only [List.mem_singleton] at hrow
            rw [hrow]
            exact containsKey_dictUpdate_of _ _ "site_name" hinit
        | obj fs =>
            simp only [List.mem_singleton] at hrow
            rw [hrow]
            exact containsKey_dictUpdate_of _ _ "site_name" hinit

/-- Claim C8, witness: both implementations on the no-envelope payload
`{"foo": "bar"}`, whose single fallback row contains `site_name`. -/
theorem claim_C8_witness :
    containsKey [("site_name", Json.str "siteB"), ("foo", Json.str "bar")] "site_name" = true ∧
    containsKey [("site_name", Json.str "siteB"), ("foo", Json.str "bar")] "site_name" = true :=
  ⟨claim_C8.1 (.obj (.cons "foo" (.str "bar") .nil)) "siteB"
      [[("site_name", Json.str "siteB"), ("foo", Json.str "bar")]]
      [("site_name", Json.str "siteB"), ("foo", Json.str "bar")] rfl (by decide),
   claim_C8.2 (.obj (.cons "foo" (.str "bar") .nil)) "siteB"
      [("site_name", Json.str "siteB"), ("foo", Json.str "bar")] (by decide)⟩

/-- Claim C1, counterexample: the row assembler does NOT always return a
non-empty sequence.  In the email implementation the empty located record
list `{"Response": {"result": {"submission": []}}}` yields zero rows, and
in the scholarone implementation `{"result": []}` (an empty list reached
through the third `or`-alternative of the envelope chain) also yields
zero rows. -/
theorem claim_C1_counterexample :
    flatten_json_email (.obj (.cons "Response" (.obj (.cons "result" (.obj (.cons "submission" (.arr .nil) .nil)) .nil)) .nil)) "siteA" = [] ∧
    flatten_json_s1 (.obj (.cons "result" (.arr .nil) .nil)) "siteA" = .ok [] :=
  ⟨rfl, rfl⟩

/-- Claim C1, amended: whenever the row assembler returns (in the
scholarone implementation the envelope chain can raise instead), it
produces one row per element of the located record list when a list was
located — so an empty located list yields an empty result — and exactly
one (whole-payload fallback) row otherwise. -/
theorem claim_C1 :
    (∀ (o : Json) (pfx : String) (rows : List (List (String × Json))),
        flatten_json_s1 o pfx = .ok rows →
        (∃ items, locateContent o = .ok (.arr items) ∧ rows.length = items.toList.length) ∨
        rows.length = 1) ∧
    (∀ (o : Json) (pfx : String),
        (∃ items, emailChain o = .ok (.arr items) ∧
          (flatten_json_email o pfx).length = items.toList.length) ∨
        (flatten_json_email o pfx).length = 1) := by
  constructor
  · intro o pfx rows hok
    unfold flatten_json_s1 at hok
    cases hl : locateContent o with
    | error e => rw [hl] at hok; exact absurd hok (by simp)
    | ok content =>
        rw [hl] at hok
        cases content with
        | arr items =>
            left
            refine ⟨items, rfl, ?_⟩
            simp only [Except.ok.injEq] at hok
            rw [← hok]
            simp
        | null => right; simp only [Except.ok.injEq] at hok; rw [← hok]; rfl
        | bool b => right; simp only [Except.ok.injEq] at hok; rw [← hok]; rfl
        | num n => right; simp only [Except.ok.injEq] at hok; rw [← hok]; rfl
        | str s => right; simp only [Except.ok.injEq] at hok; rw [← hok]; rfl
        | obj fs => right; simp only [Except.ok.injEq] at hok; rw [← hok]; rfl
  · intro o pfx
    unfold flatten_json_email
    cases hc : emailChain o with
    | error e => right; rfl
    | ok content =>
        cases content with
        | arr items =>
            left
            refine ⟨items, rfl, ?_⟩
            simp
        | null => right; rfl
        | bool b => right; rfl
        | num n => right; rfl
        | str s => right; rfl
        | obj fs => right; rfl

/-- Claim C1, witness: the scholarone clause at the two-submission payload
`{"Response": {"result": {"submission": [{"id": 1}, {"id": 2}]}}}`. -/
theorem claim_C1_witness :
    (∃ items,
        locateContent (.obj (.cons "Response" (.obj (.cons "result" (.obj (.cons "submission" (.arr (.cons (.obj (.cons "id" (.num 1) .nil)) (.cons (.obj (.cons "id" (.num 2) .nil)) .nil))) .nil)) .nil)) .nil)) = .ok (.arr items) ∧
        ([[("site_name", Json.str "siteA"), ("id", Json.num 1)], [("site_name", Json.str "siteA"), ("id", Json.num 2)]] : List (List (String × Json))).length = items.toList.length) ∨
    ([[("site_name", Json.str "siteA"), ("id", Json.num 1)], [("site_name", Json.str "siteA"), ("id", Json.num 2)]] : List (List (String × Json))).length = 1 :=
  claim_C1.1 (.obj (.cons "Response" (.obj (.cons "result" (.obj (.cons "submission" (.arr (.cons (.obj (.cons "id" (.num 1) .nil)) (.cons (.obj (.cons "id" (.num 2) .nil)) .nil))) .nil)) .nil)) .nil)) "siteA"
    [[("site_name", Json.str "siteA"), ("id", Json.num 1)], [("site_name", Json.str "siteA"), ("id", Json.num 2)]]
    rfl

/-- Claim C2, counterexample: `flatten_json` of `scholarone_gui_app.py`
DOES raise on some structurally valid JSON payloads: a top-level sequence
has no `.get` attribute and the envelope chain is not guarded there, so
the call raises `AttributeError` (modelled as `.error ()`) instead of
falling back. -/
theorem claim_C2_counterexample :
    flatten_json_s1 (.arr .nil) "siteA" = .error () := rfl

/-- Claim C2, amended: the no-raise guarantee holds for the email
implementation only: its envelope traversal is wrapped in
`try/except Exception: pass`, so any wrong type at a traversal step is
treated as "path not found" and produces the single whole-payload fallback
row.  (The scholarone implementation has no such handler and raises, see
the counterexample.) -/
theorem claim_C2 (o : Json) (pfx : String) (h : emailChain o = .error ()) :
    flatten_json_email o pfx = [dictUpdate [("site_name", .str pfx)] (emailRecurse o "")] := by
  unfold flatten_json_email
  rw [h]

/-- Claim C2, witness: the top-level sequence `[]`, whose traversal raises
inside the `try` block and which therefore becomes one fallback row. -/
theorem claim_C2_witness :
    emailChain (.arr .nil) = .error () ∧
    flatten_json_email (.arr .nil) "siteB"
      = [dictUpdate [("site_name", .str "siteB")] (emailRecurse (.arr .nil) "")] :=
  ⟨rfl, claim_C2 (.arr .nil) "siteB" rfl⟩

/-- Claim C9: for a non-empty token sequence and batch size `n ≥ 1` the
planner partitions the tokens in order — the concatenation of the batches
is the original sequence, every batch has length at most `n`, and every
batch except possibly the last has length exactly `n` — and for an empty
token sequence it produces the single null-batch sentinel `[[None]]`. -/
theorem claim_C9 (ids : List String) (n : Nat) (hn : 1 ≤ n) :
    (ids = [] → planBatches ids n = [[none]]) ∧
    (ids ≠ [] →
      planBatches ids n = (sliceChunks n ids).map (fun b => b.map some) ∧
      (sliceChunks n ids).flatten = ids ∧
      (∀ b ∈ sliceChunks n ids, b.length ≤ n) ∧
      (∀ b ∈ (sliceChunks n ids).dropLast, b.length = n)) := by
  constructor
  · intro h
    simp [planBatches, h]
  · intro h
    refine ⟨?_, ?_, ?_, ?_⟩
    · simp [planBatches, h]
    · exact sliceChunksAux_join n hn ids.length ids (le_refl _)
    · intro b hb
      exact sliceChunksAux_mem_length n ids.length ids b hb
    · intro b hb
      exact sliceChunksAux_dropLast n hn ids.length ids (le_refl _) b hb

/-- Claim C9, witness: the spec's example `planBatches(["1".."5"], 2)`,
checking the partition properties concretely. -/
theorem claim_C9_witness :
    (((["1", "2", "3", "4", "5"] : List String) = [] → planBatches ["1", "2", "3", "4", "5"] 2 = [[none]]) ∧
      ((["1", "2", "3", "4", "5"] : List String) ≠ [] →
        planBatches ["1", "2", "3", "4", "5"] 2 = (sliceChunks 2 ["1", "2", "3", "4", "5"]).map (fun b => b.map some) ∧
        (sliceChunks 2 ["1", "2", "3", "4", "5"]).flatten = ["1", "2", "3", "4", "5"] ∧
        (∀ b ∈ sliceChunks 2 ["1", "2", "3", "4", "5"], b.length ≤ 2) ∧
        (∀ b ∈ (sliceChunks 2 ["1", "2", "3", "4", "5"]).dropLast, b.length = 2))) ∧
    planBatches ([] : List String) 2 = [[none]] :=
  ⟨claim_C9 ["1", "2", "3", "4", "5"] 2 (by decide),
   (claim_C9 ([] : List String) 2 (by decide)).1 rfl⟩
